import Mathlib

/-!
Verification of github-changelog-generator.

Part 1 embeds `src/setup.py` (the only source file present): evaluating the
module performs a single call to distutils `setup` with fixed keyword
arguments.

Part 2 models the changelog core (Selector, Classifier, Deduplicator,
Renderer) named by the spec.  The script `update_changelog` declared in
`setup.py` is not part of the source tree, so these definitions are
modelled from the spec, following its contracts in sections 3 through 7.
-/

namespace ChangelogGen

/-- SetupCall records the keyword arguments of one call to distutils
`setup` as performed by `setup.py`. -/
structure SetupCall where
  name : String
  version : String
  description : String
  scripts : List String
  install_requires : List String
deriving DecidableEq, Repr

/-- The sequence of `setup` calls performed when `src/setup.py` is
evaluated: the module imports `setup` and performs exactly one call with
these keyword arguments, and nothing else. -/
def setupPyCalls : List SetupCall :=
  [{ name := "github-changelog-generator"
     version := "0.1"
     description := "Generate changelogs from github PRs"
     scripts := ["update_changelog"]
     install_requires := ["PyGithub"] }]

/-- Modelled from the spec: the ordered Category enumeration of section 3
(the `update_changelog` script is not under src/).  Breaking Changes,
Features, Fixes, Other, in fixed rendering order. -/
inductive Category where
  | Breaking : Category
  | Features : Category
  | Fixes : Category
  | Other : Category
deriving DecidableEq, Repr

/-- Position of a category in the fixed enumeration order. -/
def catIdx : Category → Nat
  | Category.Breaking => 0
  | Category.Features => 1
  | Category.Fixes => 2
  | Category.Other => 3

/-- The fixed enumeration order of categories, as rendered. -/
def categoryOrderList : List Category :=
  [Category.Breaking, Category.Features, Category.Fixes, Category.Other]

/-- Modelled from the spec: the PullRequest data shape of section 3 (the
`update_changelog` script is not under src/).  `mergedAt` is `none` for a
PR that was closed without being merged; merge points are resolved
timestamps. -/
structure PullRequest where
  number : Nat
  title : String
  author : String
  mergedAt : Option Nat
  labels : List String
  linkedIssues : List Nat
  targetBranch : String
deriving DecidableEq, Repr

/-- Modelled from the spec: a VersionBoundary whose two endpoints have
been resolved to points in history, delimiting the inclusive-exclusive
window [start, stop). -/
structure VersionBoundary where
  start : Nat
  stop : Nat
deriving DecidableEq, Repr

/-- Modelled from the spec, section 4.1: a PR qualifies iff it is merged
(not merely closed), its merge point falls within the boundary window
[start, stop), and it carries none of the excluded labels. -/
def qualifies (pr : PullRequest) (b : VersionBoundary) (excl : List String) : Bool :=
  match pr.mergedAt with
  | none => false
  | some t => (decide (b.start ≤ t) && decide (t < b.stop)) &&
      pr.labels.all (fun l => !(excl.contains l))

/-- Modelled from the spec, section 4.1: the Selector is a pure filter of
the fetched set by `qualifies`. -/
def select (prs : List PullRequest) (b : VersionBoundary) (excl : List String) :
    List PullRequest :=
  prs.filter (fun pr => qualifies pr b excl)

/-- Modelled from the spec, section 4.2: a label-pattern matches a PR
label; patterns are plain label strings matched exactly. -/
def patMatches (pat lbl : String) : Bool :=
  pat == lbl

/-- Modelled from the spec, section 4.2: the Classifier returns the
Category of the first rule, in rule order, one of whose labels the PR
carries; when no rule matches (including an empty label set) it returns
the default Other category, never an error. -/
def classify (pr : PullRequest) (rules : List (String × Category)) : Category :=
  match rules.find? (fun rule => pr.labels.any (fun l => patMatches rule.1 l)) with
  | some rule => rule.2
  | none => Category.Other

/-- A classified PR: the PR together with the Category the Classifier
assigned to it. -/
abbrev Classified := PullRequest × Category

/-- Modelled from the spec, section 4.3: title normalisation used by the
Deduplicator to compare titles. -/
def normTitle (s : String) : String :=
  s.trim.toLower

/-- Modelled from the spec, section 4.3: two PRs are duplicates when they
reference the same linked-issue identifier or have the same normalised
title. -/
def shares (p q : PullRequest) : Bool :=
  p.linkedIssues.any (fun i => q.linkedIssues.contains i) ||
    (normTitle p.title == normTitle q.title)

/-- Duplicate relation lifted to classified PRs. -/
def sharesC (p q : Classified) : Bool :=
  shares p.1 q.1

/-- One step of grouping: all existing groups containing a duplicate of
the incoming PR are merged with it into a single group; the remaining
groups are kept unchanged. -/
def addToGroups (groups : List (List Classified)) (c : Classified) :
    List (List Classified) :=
  groups.filter (fun g => !(g.any (sharesC c))) ++
    [(groups.filter (fun g => g.any (sharesC c))).flatten ++ [c]]

/-- Modelled from the spec, section 4.3: the dedup groups of a classified
PR list, built by folding each PR into the accumulated groups. -/
def groupsOf (l : List Classified) : List (List Classified) :=
  l.foldl addToGroups []

/-- Modelled from the spec, section 3: a ChangelogEntry carries a rendered
title, one category, the contributor set and the source-PR-number set of
its group. -/
structure ChangelogEntry where
  title : String
  category : Category
  contributors : List String
  sourcePRs : List Nat
deriving DecidableEq, Repr

/-- Earlier of two categories in the fixed enumeration order. -/
def catMin (a b : Category) : Category :=
  if catIdx b < catIdx a then b else a

/-- Sorted duplicate-free list of naturals representing a finite set. -/
def natSortDedup (l : List Nat) : List Nat :=
  l.dedup.insertionSort (fun a b => a ≤ b)

/-- The group member with the smallest PR number, starting from a seed. -/
def pickLead (c : Classified) (g : List Classified) : Classified :=
  g.foldl (fun best x => if x.1.number < best.1.number then x else best) c

/-- Modelled from the spec, section 4.3: the ChangelogEntry of one dedup
group; contributor and source-PR sets are unions over the group, the
title is taken from the member with the lowest PR number, and the
category is the earliest-declared one among the members. -/
def mkEntry (g : List Classified) : ChangelogEntry :=
  match g with
  | [] => { title := "", category := Category.Other, contributors := [], sourcePRs := [] }
  | c :: rest =>
      { title := (pickLead c rest).1.title
        category := (rest.map Prod.snd).foldl catMin c.2
        contributors := ((c :: rest).map (fun x => x.1.author)).dedup
        sourcePRs := natSortDedup ((c :: rest).map (fun x => x.1.number)) }

/-- Modelled from the spec, section 4.3: the Deduplicator collapses the
classified PR list into one ChangelogEntry per dedup group. -/
def deduplicate (l : List Classified) : List ChangelogEntry :=
  (groupsOf l).map mkEntry

/-- Stable ordering key of an entry: its lowest source PR number
(`sourcePRs` is sorted ascending, so this is its head). -/
def entryKey (e : ChangelogEntry) : Nat :=
  e.sourcePRs.headD 0

/-- Entry order inside a section: ascending lowest source PR number. -/
def entryLE (a b : ChangelogEntry) : Prop :=
  entryKey a ≤ entryKey b

instance : DecidableRel entryLE := fun a b => Nat.decLe (entryKey a) (entryKey b)

instance : IsTotal ChangelogEntry entryLE :=
  ⟨fun a b => Nat.le_total (entryKey a) (entryKey b)⟩

instance : IsTrans ChangelogEntry entryLE :=
  ⟨fun _ _ _ h h2 => Nat.le_trans h h2⟩

/-- Modelled from the spec, section 4.4: the entries of one category
section, in the stable order. -/
def sectionEntries (entries : List ChangelogEntry) (c : Category) :
    List ChangelogEntry :=
  (entries.filter (fun e => e.category == c)).insertionSort entryLE

/-- Modelled from the spec, section 4.4: the optional document section of
one category, absent when the category has zero entries. -/
def sectionOpt (entries : List ChangelogEntry) (c : Category) :
    Option (Category × List ChangelogEntry) :=
  if (sectionEntries entries c).isEmpty then none
  else some (c, sectionEntries entries c)

/-- Modelled from the spec, section 4.4: the structured document, one
section per Category in fixed enumeration order, empty categories
omitted entirely. -/
def renderDoc (entries : List ChangelogEntry) :
    List (Category × List ChangelogEntry) :=
  categoryOrderList.filterMap (sectionOpt entries)

/-- Heading text of a category section. -/
def catName : Category → String
  | Category.Breaking => "Breaking Changes"
  | Category.Features => "Features"
  | Category.Fixes => "Fixes"
  | Category.Other => "Other"

/-- One rendered entry line: title, contributors and source PR references. -/
def formatEntry (e : ChangelogEntry) : String :=
  "- " ++ e.title ++ " (" ++ String.intercalate ", " e.contributors ++ ") " ++
    String.intercalate " " (e.sourcePRs.map (fun n => "#" ++ toString n))

/-- One rendered section: heading plus entry lines. -/
def formatSection (s : Category × List ChangelogEntry) : String :=
  "## " ++ catName s.1 ++ "\n" ++
    String.intercalate "\n" (s.2.map formatEntry) ++ "\n"

/-- Modelled from the spec, section 4.4: the header line states the
boundary in human-readable form. -/
def header (b : VersionBoundary) : String :=
  "# Changes from " ++ toString b.start ++ " to " ++ toString b.stop ++ "\n"

/-- Modelled from the spec, section 4.4: the Renderer produces the final
text from the structured document. -/
def render (entries : List ChangelogEntry) (b : VersionBoundary) : String :=
  header b ++ String.intercalate "" ((renderDoc entries).map formatSection)

/-- Order on PRs by their identifying number, used to canonicalise the
fetched sequence before grouping. -/
def prLE (p q : PullRequest) : Prop :=
  p.number ≤ q.number

instance : DecidableRel prLE := fun p q => Nat.decLe p.number q.number

instance : IsTotal PullRequest prLE :=
  ⟨fun a b => Nat.le_total a.number b.number⟩

instance : IsTrans PullRequest prLE :=
  ⟨fun _ _ _ h h2 => Nat.le_trans h h2⟩

/-- Canonical order of the qualifying PR list: ascending PR number. -/
def sortPRs (l : List PullRequest) : List PullRequest :=
  l.insertionSort prLE

/-- Modelled from the spec, section 2: the classified and deduplicated
entry list of one run, Selector then Classifier then Deduplicator, on the
canonically ordered qualifying set. -/
def entriesOf (prs : List PullRequest) (b : VersionBoundary)
    (excl : List String) (rules : List (String × Category)) :
    List ChangelogEntry :=
  deduplicate ((sortPRs (select prs b excl)).map (fun p => (p, classify p rules)))

/-- Modelled from the spec, section 2: the full core pipeline, Selector
through Renderer, as one pure function from the fetched set and the
configuration to the rendered text. -/
def pipeline (prs : List PullRequest) (b : VersionBoundary)
    (excl : List String) (rules : List (String × Category)) : String :=
  render (entriesOf prs b excl rules) b

/-- Modelled from the spec, section 7: the error taxonomy of the core. -/
inductive PipelineError where
  | BoundaryResolutionError : PipelineError
  | FetchError : PipelineError
  | ConfigurationError : PipelineError
deriving DecidableEq, Repr

/-- Modelled from the spec, sections 3 and 6: resolving a boundary
endpoint reference against the repository history, given as a mapping
from reference names to points. -/
def resolveRef (history : List (String × Nat)) (ref : String) : Option Nat :=
  (history.find? (fun h => h.1 == ref)).map Prod.snd

/-- Modelled from the spec, sections 6 and 7: one full run.  Both
boundary endpoints are resolved first (else BoundaryResolutionError); a
start boundary later than the end boundary is a ConfigurationError; a
failed fetch is fatal (FetchError, no partial output); otherwise the pure
pipeline runs on the fetched list. -/
def runPipeline (history : List (String × Nat)) (sref eref : String)
    (fetched : Except Unit (List PullRequest)) (excl : List String)
    (rules : List (String × Category)) : Except PipelineError String :=
  match resolveRef history sref with
  | none => Except.error PipelineError.BoundaryResolutionError
  | some a =>
      match resolveRef history eref with
      | none => Except.error PipelineError.BoundaryResolutionError
      | some z =>
          if a ≤ z then
            match fetched with
            | Except.error _ => Except.error PipelineError.FetchError
            | Except.ok prs =>
                Except.ok (pipeline prs { start := a, stop := z } excl rules)
          else Except.error PipelineError.ConfigurationError

/-- C1: evaluating src/setup.py performs exactly one call to distutils
setup, with exactly the keyword arguments name, version, description,
scripts and install_requires shown in the file; it declares exactly one
command-line script (update_changelog) and exactly one third-party
dependency (PyGithub), and no other computation is performed. -/
theorem setup_py_single_call :
    setupPyCalls.length = 1 ∧
    setupPyCalls = [{ name := "github-changelog-generator"
                      version := "0.1"
                      description := "Generate changelogs from github PRs"
                      scripts := ["update_changelog"]
                      install_requires := ["PyGithub"] }] ∧
    (∀ c ∈ setupPyCalls, c.scripts.length = 1 ∧ c.install_requires.length = 1 ∧
      c.scripts = ["update_changelog"] ∧ c.install_requires = ["PyGithub"]) := by
  refine ⟨rfl, rfl, ?_⟩
  intro c hc
  simp only [setupPyCalls, List.mem_singleton] at hc
  subst hc
  exact ⟨rfl, rfl, rfl, rfl⟩

/-- Sample fixture: a merged feature PR linking issue 5. -/
def prFeat : PullRequest :=
  ⟨20, "Add feature", "alice", some 5, ["feature"], [5], "main"⟩

/-- Sample fixture: a second merged feature PR linking issue 5. -/
def prFeat2 : PullRequest :=
  ⟨21, "Polish feature", "bob", some 6, ["feature"], [5], "main"⟩

/-- Sample fixture: a merged bug-fix PR with no linked issues. -/
def prBug : PullRequest :=
  ⟨10, "Fix bug", "carol", some 3, ["bug"], [], "main"⟩

/-- Sample fixture: label-to-category rules. -/
def sampleRules : List (String × Category) :=
  [("feature", Category.Features), ("bug", Category.Fixes)]

/-- Sample fixture: a resolved boundary window. -/
def sampleBoundary : VersionBoundary :=
  ⟨0, 10⟩

/-- Unfolding of the Selector predicate: a PR qualifies iff it is merged,
its merge point lies in [start, stop), and no label is excluded. -/
theorem qualifies_iff (pr : PullRequest) (b : VersionBoundary) (excl : List String) :
    qualifies pr b excl = true ↔
      (∃ t, pr.mergedAt = some t ∧ b.start ≤ t ∧ t < b.stop) ∧
        ∀ l ∈ pr.labels, l ∉ excl := by
  unfold qualifies
  cases hm : pr.mergedAt with
  | none => simp
  | some t =>
      simp [List.all_eq_true, Bool.and_eq_true, decide_eq_true_eq, and_assoc]

/-- C2: for every fetched PR list, boundary and excluded label set,
select returns exactly the PRs that are merged, whose merge point lies in
the window, and that carry no excluded label; a PR with an empty label
set is returned whenever it is merged and in range. -/
theorem selector_contract (prs : List PullRequest) (b : VersionBoundary)
    (excl : List String) (pr : PullRequest) :
    (pr ∈ select prs b excl ↔
      pr ∈ prs ∧ (∃ t, pr.mergedAt = some t ∧ b.start ≤ t ∧ t < b.stop) ∧
        ∀ l ∈ pr.labels, l ∉ excl) ∧
    (pr.labels = [] → pr ∈ prs →
      (∃ t, pr.mergedAt = some t ∧ b.start ≤ t ∧ t < b.stop) →
      pr ∈ select prs b excl) := by
  constructor
  · rw [select, List.mem_filter, qualifies_iff]
  · intro hlab hmem hrange
    rw [select, List.mem_filter, qualifies_iff]
    exact ⟨hmem, hrange, by simp [hlab]⟩

/-- C2 witness: the sample bug-fix PR, merged at 3 inside [0, 10) with no
excluded labels, is selected. -/
theorem selector_contract_witness :
    prBug ∈ select [prBug] sampleBoundary [] :=
  ((selector_contract [prBug] sampleBoundary [] prBug).1).mpr
    ⟨by decide, ⟨3, by decide, by decide, by decide⟩, by decide⟩

/-- First-match computation of find? over a split list. -/
theorem find?_first_match {α : Type} (p : α → Bool) :
    ∀ (pre : List α) (x : α) (post : List α),
    (∀ y ∈ pre, p y = false) → p x = true →
    List.find? p (pre ++ x :: post) = some x := by
  intro pre
  induction pre with
  | nil =>
      intro x post _ hx
      simp [List.find?_cons_of_pos, hx]
  | cons a as ih =>
      intro x post hpre hx
      have ha : p a = false := hpre a (List.mem_cons_self a as)
      rw [List.cons_append, List.find?_cons_of_neg]
      · exact ih x post (fun y hy => hpre y (List.mem_cons_of_mem a hy)) hx
      · simp [ha]

/-- C3: classify returns the Category of the first rule, in rule order,
whose pattern matches one of the PR labels; when no rule matches any
label, and in particular when the PR has no labels, it returns the
default Other category.  classify is a total function, so every PR
receives exactly one Category. -/
theorem classifier_first_match (pr : PullRequest)
    (rules : List (String × Category)) :
    (∀ (pre : List (String × Category)) (rule : String × Category)
        (post : List (String × Category)),
        rules = pre ++ rule :: post →
        (∀ r0 ∈ pre, pr.labels.any (fun l => patMatches r0.1 l) = false) →
        pr.labels.any (fun l => patMatches rule.1 l) = true →
        classify pr rules = rule.2) ∧
    ((∀ r0 ∈ rules, pr.labels.any (fun l => patMatches r0.1 l) = false) →
        classify pr rules = Category.Other) ∧
    (pr.labels = [] → classify pr rules = Category.Other) := by
  refine ⟨?_, ?_, ?_⟩
  · intro pre rule post hsplit hpre hrule
    subst hsplit
    unfold classify
    rw [find?_first_match (fun r => pr.labels.any (fun l => patMatches r.1 l))
      pre rule post hpre hrule]
  · intro hnone
    unfold classify
    rw [List.find?_eq_none.mpr (fun r hr => by simp [hnone r hr])]
  · intro hlab
    unfold classify
    rw [List.find?_eq_none.mpr (fun r hr => by simp [hlab])]

/-- C3 witness: with the sample rules the bug label picks the second
rule (Fixes), and a PR with no matching label falls back to Other. -/
theorem classifier_first_match_witness :
    classify prBug sampleRules = Category.Fixes :=
  (classifier_first_match prBug sampleRules).1
    [("feature", Category.Features)] ("bug", Category.Fixes) []
    rfl (by decide) (by decide)

/-- C9: the Selector applies the inclusive-exclusive convention to the
window [start, stop): a PR merged exactly at the start qualifies
(provided the window is nonempty and no label is excluded), and a PR
merged exactly at the stop never qualifies. -/
theorem boundary_convention (b : VersionBoundary) (pr : PullRequest)
    (excl : List String) :
    (pr.mergedAt = some b.start → b.start < b.stop →
      (∀ l ∈ pr.labels, l ∉ excl) → qualifies pr b excl = true) ∧
    (pr.mergedAt = some b.stop → qualifies pr b excl = false) := by
  constructor
  · intro hm hlt hlab
    exact (qualifies_iff pr b excl).mpr ⟨⟨b.start, hm, Nat.le_refl _, hlt⟩, hlab⟩
  · intro hm
    rw [Bool.eq_false_iff]
    intro hq
    rcases (qualifies_iff pr b excl).mp hq with ⟨⟨t, ht, _, htlt⟩, _⟩
    rw [hm] at ht
    cases ht
    exact Nat.lt_irrefl _ htlt

/-- C9 witness: a PR merged exactly at the start of [3, 10) qualifies and
a PR merged exactly at the stop of [0, 3) does not. -/
theorem boundary_convention_witness :
    qualifies prBug ⟨3, 10⟩ [] = true ∧ qualifies prBug ⟨0, 3⟩ [] = false :=
  ⟨(boundary_convention ⟨3, 10⟩ prBug []).1 rfl (by decide) (by decide),
   (boundary_convention ⟨0, 3⟩ prBug []).2 rfl⟩

/-- C7: the pipeline is a deterministic pure function of the fetched PR
set and the configuration; two runs on the same input produce the same
rendered text. -/
theorem pipeline_deterministic (prs : List PullRequest) (b : VersionBoundary)
    (excl : List String) (rules : List (String × Category)) (o₁ o₂ : String)
    (h₁ : o₁ = pipeline prs b excl rules) (h₂ : o₂ = pipeline prs b excl rules) :
    o₁ = o₂ := by
  rw [h₁, h₂]

/-- C7 witness: two runs on the sample input agree. -/
theorem pipeline_deterministic_witness :
    pipeline [prBug] sampleBoundary [] sampleRules =
      pipeline [prBug] sampleBoundary [] sampleRules :=
  pipeline_deterministic [prBug] sampleBoundary [] sampleRules _ _ rfl rfl

/-- C10: a run fails with BoundaryResolutionError exactly when one of the
boundary endpoints does not resolve against the repository history; a
failed fetch never yields output (no partial changelog); and output is
produced only when both endpoints resolve in order and the fetch
succeeded, in which case it is exactly the pure pipeline's text. -/
theorem run_error_handling (history : List (String × Nat)) (sref eref : String)
    (fetched : Except Unit (List PullRequest)) (excl : List String)
    (rules : List (String × Category)) :
    (runPipeline history sref eref fetched excl rules =
        Except.error PipelineError.BoundaryResolutionError ↔
      resolveRef history sref = none ∨ resolveRef history eref = none) ∧
    (∀ u, fetched = Except.error u →
      ∀ s, runPipeline history sref eref fetched excl rules ≠ Except.ok s) ∧
    (∀ s, runPipeline history sref eref fetched excl rules = Except.ok s →
      ∃ a z prs, resolveRef history sref = some a ∧
        resolveRef history eref = some z ∧ a ≤ z ∧ fetched = Except.ok prs ∧
        s = pipeline prs { start := a, stop := z } excl rules) := by
  cases hs : resolveRef history sref with
  | none => simp [runPipeline, hs]
  | some a =>
      cases he : resolveRef history eref with
      | none => simp [runPipeline, hs, he]
      | some z =>
          by_cases hle : a ≤ z
          · cases fetched with
            | error u => simp [runPipeline, hs, he, hle]
            | ok prs =>
                refine ⟨by simp [runPipeline, hs, he, hle], by simp, ?_⟩
                intro s hrun
                simp only [runPipeline, hs, he, hle, if_true, if_pos,
                  Except.ok.injEq] at hrun
                exact ⟨a, z, prs, rfl, rfl, hle, rfl, hrun.symm⟩
          · simp [runPipeline, hs, he, hle]

/-- C10 witness: with an empty history the start tag does not resolve and
the run fails with BoundaryResolutionError; with a resolving history and
a failed fetch the run yields no output. -/
theorem run_error_handling_witness :
    runPipeline [] "v1" "v2" (Except.ok []) [] [] =
      Except.error PipelineError.BoundaryResolutionError ∧
    runPipeline [("v1", 1), ("v2", 3)] "v1" "v2" (Except.error ()) [] [] ≠
      Except.ok "" :=
  ⟨((run_error_handling [] "v1" "v2" (Except.ok []) [] []).1).mpr (Or.inl rfl),
   ((run_error_handling [("v1", 1), ("v2", 3)] "v1" "v2"
      (Except.error ()) [] []).2.1) () rfl ""⟩

/-- Equation lemma: an empty section yields no document section. -/
theorem sectionOpt_eq_none {entries : List ChangelogEntry} {c : Category}
    (h : (sectionEntries entries c).isEmpty = true) :
    sectionOpt entries c = none := by
  simp [sectionOpt, h]

/-- Equation lemma: a nonempty section yields its document section. -/
theorem sectionOpt_eq_some {entries : List ChangelogEntry} {c : Category}
    (h : ¬(sectionEntries entries c).isEmpty = true) :
    sectionOpt entries c = some (c, sectionEntries entries c) := by
  simp [sectionOpt, h]

/-- Membership in the section list: a category heads some section exactly
when it is in the given order and its section is nonempty. -/
theorem renderDoc_fst_mem (entries : List ChangelogEntry) :
    ∀ (order : List Category) (c : Category),
    (c ∈ ((order.filterMap (sectionOpt entries)).map Prod.fst ) ↔
      c ∈ order ∧ ¬(sectionEntries entries c).isEmpty = true) := by
  intro order
  induction order with
  | nil => simp
  | cons a as ih =>
      intro c
      by_cases ha : (sectionEntries entries a).isEmpty = true
      · rw [List.filterMap_cons, sectionOpt_eq_none ha, ih c, List.mem_cons]
        constructor
        · exact fun h => ⟨Or.inr h.1, h.2⟩
        · rintro ⟨h | h, hne⟩
          · subst h
            exact absurd ha hne
          · exact ⟨h, hne⟩
      · rw [List.filterMap_cons, sectionOpt_eq_some ha, List.map_cons,
          List.mem_cons, ih c, List.mem_cons]
        constructor
        · rintro (h | h)
          · have h2 : c = a := h
            exact ⟨Or.inl h2, by rw [h2]; exact ha⟩
          · exact ⟨Or.inr h.1, h.2⟩
        · rintro ⟨h | h, hne⟩
          · exact Or.inl h
          · exact Or.inr ⟨h, hne⟩

/-- The section headings form a sublist of the given category order. -/
theorem renderDoc_fst_sublist (entries : List ChangelogEntry) :
    ∀ (order : List Category),
    ((order.filterMap (sectionOpt entries)).map Prod.fst).Sublist order := by
  intro order
  induction order with
  | nil => simp
  | cons a as ih =>
      by_cases ha : (sectionEntries entries a).isEmpty = true
      · rw [List.filterMap_cons, sectionOpt_eq_none ha]
        exact ih.cons a
      · rw [List.filterMap_cons, sectionOpt_eq_some ha, List.map_cons]
        exact ih.cons₂ a

/-- Every category occurs in the fixed enumeration order. -/
theorem mem_categoryOrderList (c : Category) : c ∈ categoryOrderList := by
  cases c <;> decide

/-- A section is empty as a list iff the filtered entry list is empty. -/
theorem sectionEntries_eq_nil_iff (entries : List ChangelogEntry) (c : Category) :
    sectionEntries entries c = [] ↔
      entries.filter (fun e => e.category == c) = [] := by
  rw [sectionEntries]
  constructor
  · intro h
    have hl := List.length_insertionSort entryLE
      (entries.filter (fun e => e.category == c))
    rw [h] at hl
    exact List.eq_nil_of_length_eq_zero hl.symm
  · intro h
    rw [h]
    rfl

/-- A section of a category is nonempty iff some entry carries it. -/
theorem sectionEntries_nonempty_iff (entries : List ChangelogEntry) (c : Category) :
    ¬(sectionEntries entries c).isEmpty = true ↔
      ∃ e ∈ entries, e.category = c := by
  rw [List.isEmpty_iff, sectionEntries_eq_nil_iff]
  rw [List.filter_eq_nil_iff]
  push_neg
  simp

/-- C5: the Renderer emits one section per Category in the fixed
enumeration order, omits entirely every Category with zero entries, and
within each section orders the entries by the stable explicit key
(ascending lowest source PR number), independent of input order. -/
theorem renderer_sections (entries : List ChangelogEntry) :
    (∀ c, c ∈ (renderDoc entries).map Prod.fst ↔ ∃ e ∈ entries, e.category = c) ∧
    ((renderDoc entries).map Prod.fst).Sublist categoryOrderList ∧
    ((renderDoc entries).map Prod.fst).Nodup ∧
    (∀ s ∈ renderDoc entries, s.2 ≠ [] ∧ s.2.Sorted entryLE ∧
      s.2.Perm (entries.filter (fun e => e.category == s.1)) ∧
      ∀ e ∈ s.2, e.category = s.1) := by
  refine ⟨?_, ?_, ?_, ?_⟩
  · intro c
    rw [renderDoc, renderDoc_fst_mem entries categoryOrderList c,
      sectionEntries_nonempty_iff]
    simp [mem_categoryOrderList]
  · exact renderDoc_fst_sublist entries categoryOrderList
  · exact (renderDoc_fst_sublist entries categoryOrderList).nodup (by decide)
  · intro s hs
    rw [renderDoc, List.mem_filterMap] at hs
    rcases hs with ⟨c0, _, hf⟩
    by_cases hempty : (sectionEntries entries c0).isEmpty = true
    · rw [sectionOpt_eq_none hempty] at hf
      cases hf
    · rw [sectionOpt_eq_some hempty] at hf
      cases hf
      refine ⟨?_, List.sorted_insertionSort entryLE _,
        List.perm_insertionSort entryLE _, ?_⟩
      · intro hnil
        exact hempty ((List.isEmpty_iff).mpr hnil)
      · intro e he
        have he2 : e ∈ sectionEntries entries c0 := he
        rw [sectionEntries, List.mem_insertionSort, List.mem_filter] at he2
        show e.category = c0
        have := he2.2
        simpa using this

/-- C5 witness: instantiated at a one-entry list, Fixes heads a section
while Breaking, having zero entries, is omitted. -/
theorem renderer_sections_witness :
    Category.Fixes ∈ (renderDoc [mkEntry [(prBug, Category.Fixes)]]).map Prod.fst ∧
    ¬Category.Breaking ∈ (renderDoc [mkEntry [(prBug, Category.Fixes)]]).map Prod.fst :=
  ⟨((renderer_sections [mkEntry [(prBug, Category.Fixes)]]).1 Category.Fixes).mpr
      ⟨mkEntry [(prBug, Category.Fixes)], by decide, by decide⟩,
   fun h => by
    have hx := ((renderer_sections [mkEntry [(prBug, Category.Fixes)]]).1
      Category.Breaking).mp h
    revert hx
    decide⟩

/-- The duplicate relation is symmetric. -/
theorem sharesC_comm (p q : Classified) : sharesC p q = sharesC q p := by
  unfold sharesC shares
  rw [Bool.eq_iff_iff]
  simp only [Bool.or_eq_true, List.any_eq_true, List.elem_iff, beq_iff_eq]
  constructor <;> rintro (⟨i, hi, hc⟩ | h)
  · exact Or.inl ⟨i, hc, hi⟩
  · exact Or.inr h.symm
  · exact Or.inl ⟨i, hc, hi⟩
  · exact Or.inr h.symm

/-- One grouping step only repartitions: its flattened output is a
permutation of the flattened input plus the incoming PR. -/
theorem addToGroups_flatten_perm (gs : List (List Classified)) (c : Classified) :
    (addToGroups gs c).flatten.Perm (gs.flatten ++ [c]) := by
  unfold addToGroups
  rw [List.flatten_append]
  have h1 : ([(gs.filter (fun g => g.any (sharesC c))).flatten ++ [c]] :
      List (List Classified)).flatten
      = (gs.filter (fun g => g.any (sharesC c))).flatten ++ [c] := by simp
  rw [h1, ← List.append_assoc]
  refine List.Perm.append_right [c] ?_
  have h2 : (((gs.filter (fun g => !(g.any (sharesC c)))) ++
      (gs.filter (fun g => g.any (sharesC c)))).flatten).Perm gs.flatten :=
    List.Perm.flatten ((List.perm_append_comm).trans
      (List.filter_append_perm (fun g => g.any (sharesC c)) gs))
  rw [List.flatten_append] at h2
  exact h2

/-- Grouping only repartitions the input list: the flattened groups are a
permutation of the seed groups and the processed PRs. -/
theorem groupsOf_flatten_perm :
    ∀ (l : List Classified) (gs : List (List Classified)),
    ((l.foldl addToGroups gs).flatten).Perm (gs.flatten ++ l) := by
  intro l
  induction l with
  | nil => intro gs; simp
  | cons c t ih =>
      intro gs
      rw [List.foldl_cons]
      refine (ih (addToGroups gs c)).trans ?_
      refine ((addToGroups_flatten_perm gs c).append_right t).trans ?_
      rw [List.append_assoc]
      simp

/-- No dedup group is ever empty. -/
theorem groupsOf_ne_nil :
    ∀ (l : List Classified) (gs : List (List Classified)),
    (∀ g ∈ gs, g ≠ []) → ∀ g ∈ l.foldl addToGroups gs, g ≠ [] := by
  intro l
  induction l with
  | nil => intro gs h; simpa using h
  | cons c t ih =>
      intro gs h
      rw [List.foldl_cons]
      refine ih (addToGroups gs c) ?_
      intro g hg
      unfold addToGroups at hg
      rcases List.mem_append.mp hg with h1 | h1
      · exact h g (List.mem_of_mem_filter h1)
      · rw [List.mem_singleton] at h1
        subst h1
        simp

/-- Two classified PRs lie in one common group of the given partition. -/
def SameGroup (gs : List (List Classified)) (p q : Classified) : Prop :=
  ∃ g ∈ gs, p ∈ g ∧ q ∈ g

/-- One grouping step preserves the invariant that any two already-placed
duplicates lie in one common group, and places the incoming PR with every
duplicate of it. -/
theorem addToGroups_same (gs : List (List Classified)) (c : Classified)
    (hinv : ∀ p q, p ∈ gs.flatten → q ∈ gs.flatten → sharesC p q = true →
      SameGroup gs p q) :
    ∀ p q, p ∈ (addToGroups gs c).flatten → q ∈ (addToGroups gs c).flatten →
      sharesC p q = true → SameGroup (addToGroups gs c) p q := by
  intro p q hp hq hpq
  have hmem : ∀ x, x ∈ (addToGroups gs c).flatten ↔ x ∈ gs.flatten ∨ x = c := by
    intro x
    rw [(addToGroups_flatten_perm gs c).mem_iff, List.mem_append, List.mem_singleton]
  have hmergedmem :
      ((gs.filter (fun g => g.any (sharesC c))).flatten ++ [c]) ∈ addToGroups gs c := by
    unfold addToGroups
    exact List.mem_append_right _ (List.mem_singleton.mpr rfl)
  have hcmerged : c ∈ (gs.filter (fun g => g.any (sharesC c))).flatten ++ [c] := by
    simp
  have hold : ∀ x, x ∈ gs.flatten → sharesC c x = true →
      x ∈ (gs.filter (fun g => g.any (sharesC c))).flatten ++ [c] := by
    intro x hx hshare
    rcases List.mem_flatten.mp hx with ⟨g, hg, hxg⟩
    refine List.mem_append_left _ ?_
    rw [List.mem_flatten]
    refine ⟨g, ?_, hxg⟩
    rw [List.mem_filter]
    exact ⟨hg, List.any_eq_true.mpr ⟨x, hxg, hshare⟩⟩
  rcases (hmem p).mp hp with hpo | hpc
  · rcases (hmem q).mp hq with hqo | hqc
    · rcases hinv p q hpo hqo hpq with ⟨g, hg, hpg, hqg⟩
      by_cases hgs : g.any (sharesC c) = true
      · refine ⟨_, hmergedmem, ?_, ?_⟩
        · exact List.mem_append_left _
            (List.mem_flatten.mpr ⟨g, List.mem_filter.mpr ⟨hg, hgs⟩, hpg⟩)
        · exact List.mem_append_left _
            (List.mem_flatten.mpr ⟨g, List.mem_filter.mpr ⟨hg, hgs⟩, hqg⟩)
      · refine ⟨g, ?_, hpg, hqg⟩
        unfold addToGroups
        refine List.mem_append_left _ ?_
        rw [List.mem_filter]
        have hfalse : g.any (sharesC c) = false := by
          revert hgs
          cases g.any (sharesC c) <;> simp
        exact ⟨hg, by rw [hfalse]; rfl⟩
    · subst hqc
      have hcp : sharesC q p = true := by
        rw [sharesC_comm] at hpq
        exact hpq
      exact ⟨_, hmergedmem, hold p hpo hcp, hcmerged⟩
  · subst hpc
    rcases (hmem q).mp hq with hqo | hqc
    · exact ⟨_, hmergedmem, hcmerged, hold q hqo hpq⟩
    · subst hqc
      exact ⟨_, hmergedmem, hcmerged, hcmerged⟩

/-- Folding the whole list preserves the common-group invariant. -/
theorem groupsOf_same :
    ∀ (l : List Classified) (gs : List (List Classified)),
    (∀ p q, p ∈ gs.flatten → q ∈ gs.flatten → sharesC p q = true →
      SameGroup gs p q) →
    ∀ p q, p ∈ (l.foldl addToGroups gs).flatten →
      q ∈ (l.foldl addToGroups gs).flatten →
      sharesC p q = true → SameGroup (l.foldl addToGroups gs) p q := by
  intro l
  induction l with
  | nil => intro gs h; exact h
  | cons c t ih =>
      intro gs h
      rw [List.foldl_cons]
      exact ih (addToGroups gs c) (addToGroups_same gs c h)

/-- The source-PR set of a group entry is the set of its PR numbers. -/
theorem mkEntry_sourcePRs (c : Classified) (rest : List Classified) (n : Nat) :
    n ∈ (mkEntry (c :: rest)).sourcePRs ↔ ∃ x ∈ c :: rest, x.1.number = n := by
  show n ∈ natSortDedup ((c :: rest).map (fun x => x.1.number)) ↔ _
  rw [natSortDedup, List.mem_insertionSort, List.mem_dedup, List.mem_map]

/-- The contributor set of a group entry is the set of its authors. -/
theorem mkEntry_contributors (c : Classified) (rest : List Classified) (a : String) :
    a ∈ (mkEntry (c :: rest)).contributors ↔ ∃ x ∈ c :: rest, x.1.author = a := by
  show a ∈ ((c :: rest).map (fun x => x.1.author)).dedup ↔ _
  rw [List.mem_dedup, List.mem_map]

/-- Folding catMin yields a lower bound in the enumeration order. -/
theorem foldl_catMin_le :
    ∀ (l : List Category) (init : Category),
    catIdx (l.foldl catMin init) ≤ catIdx init ∧
    ∀ x ∈ l, catIdx (l.foldl catMin init) ≤ catIdx x := by
  intro l
  induction l with
  | nil =>
      intro init
      exact ⟨Nat.le_refl _, by simp⟩
  | cons a t ih =>
      intro init
      rw [List.foldl_cons]
      rcases ih (catMin init a) with ⟨h1, h2⟩
      have hminle : catIdx (catMin init a) ≤ catIdx init ∧
          catIdx (catMin init a) ≤ catIdx a := by
        unfold catMin
        by_cases hc : catIdx a < catIdx init
        · rw [if_pos hc]
          exact ⟨Nat.le_of_lt hc, Nat.le_refl _⟩
        · rw [if_neg hc]
          exact ⟨Nat.le_refl _, Nat.le_of_not_lt hc⟩
      refine ⟨Nat.le_trans h1 hminle.1, ?_⟩
      intro x hx
      rcases List.mem_cons.mp hx with rfl | hx
      · exact Nat.le_trans h1 hminle.2
      · exact h2 x hx

/-- Folding catMin yields the seed or a member of the list. -/
theorem foldl_catMin_mem :
    ∀ (l : List Category) (init : Category),
    l.foldl catMin init = init ∨ l.foldl catMin init ∈ l := by
  intro l
  induction l with
  | nil =>
      intro init
      exact Or.inl rfl
  | cons a t ih =>
      intro init
      rw [List.foldl_cons]
      rcases ih (catMin init a) with h | h
      · rw [h]
        unfold catMin
        by_cases hc : catIdx a < catIdx init
        · rw [if_pos hc]
          exact Or.inr (List.mem_cons_self a t)
        · rw [if_neg hc]
          exact Or.inl rfl
      · exact Or.inr (List.mem_cons_of_mem a h)

/-- The category of a group entry is the earliest-declared category among
the group members. -/
theorem mkEntry_category (c : Classified) (rest : List Classified) :
    (mkEntry (c :: rest)).category ∈ (c :: rest).map Prod.snd ∧
    ∀ x ∈ c :: rest, catIdx (mkEntry (c :: rest)).category ≤ catIdx x.2 := by
  have hcat : (mkEntry (c :: rest)).category = (rest.map Prod.snd).foldl catMin c.2 := rfl
  constructor
  · rw [hcat, List.map_cons]
    rcases foldl_catMin_mem (rest.map Prod.snd) c.2 with h | h
    · rw [h]
      exact List.mem_cons_self _ _
    · exact List.mem_cons_of_mem _ h
  · intro x hx
    rw [hcat]
    rcases List.mem_cons.mp hx with rfl | hx
    · exact (foldl_catMin_le (rest.map Prod.snd) x.2).1
    · exact (foldl_catMin_le (rest.map Prod.snd) c.2).2 x.2
        (List.mem_map.mpr ⟨x, hx, rfl⟩)

/-- The source-PR membership test of a group entry, as a Bool equation. -/
theorem mkEntry_contains (g : List Classified) (n : Nat) :
    ((mkEntry g).sourcePRs.contains n) = g.any (fun x => x.1.number == n) := by
  cases g with
  | nil => rfl
  | cons c rest =>
      rw [Bool.eq_iff_iff]
      simp only [List.elem_iff, List.any_eq_true, beq_iff_eq]
      exact mkEntry_sourcePRs c rest n

/-- When no element of the flattened partition satisfies P, no group
contains an element satisfying P. -/
theorem countP_flatten_zero {α : Type} (P : α → Bool) :
    ∀ (gs : List (List α)), gs.flatten.countP P = 0 →
      gs.countP (fun g => g.any P) = 0 := by
  intro gs
  induction gs with
  | nil => intro _; rfl
  | cons g t ih =>
      intro h
      rw [List.flatten_cons, List.countP_append] at h
      have hg : g.countP P = 0 := by omega
      have ht : t.flatten.countP P = 0 := by omega
      have hany : g.any P = false := by
        rw [List.any_eq_false]
        exact fun x hx => by simp [List.countP_eq_zero.mp hg x hx]
      rw [List.countP_cons]
      simp [hany, ih ht]

/-- When exactly one element of the flattened partition satisfies P,
exactly one group contains an element satisfying P. -/
theorem countP_flatten_one {α : Type} (P : α → Bool) :
    ∀ (gs : List (List α)), gs.flatten.countP P = 1 →
      gs.countP (fun g => g.any P) = 1 := by
  intro gs
  induction gs with
  | nil => intro h; simp at h
  | cons g t ih =>
      intro h
      rw [List.flatten_cons, List.countP_append] at h
      rw [List.countP_cons]
      by_cases hg : g.countP P = 0
      · have ht : t.flatten.countP P = 1 := by omega
        have hany : g.any P = false := by
          rw [List.any_eq_false]
          exact fun x hx => by simp [List.countP_eq_zero.mp hg x hx]
        simp [hany, ih ht]
      · have hgpos : 0 < g.countP P := Nat.pos_of_ne_zero hg
        have hany : g.any P = true := by
          rw [List.any_eq_true]
          rcases List.countP_pos_iff.mp hgpos with ⟨x, hx, hpx⟩
          exact ⟨x, hx, hpx⟩
        have ht : t.flatten.countP P = 0 := by omega
        simp [hany, countP_flatten_zero P t ht]

/-- A list with countP one has a unique element satisfying P. -/
theorem countP_one_char {α : Type} (P : α → Bool) :
    ∀ (l : List α), l.countP P = 1 →
      ∃ a, a ∈ l ∧ P a = true ∧ ∀ b ∈ l, P b = true → b = a := by
  intro l
  induction l with
  | nil => intro h; simp at h
  | cons x t ih =>
      intro h
      rw [List.countP_cons] at h
      by_cases hx : P x = true
      · rw [if_pos hx] at h
        have ht : t.countP P = 0 := by omega
        refine ⟨x, List.mem_cons_self x t, hx, ?_⟩
        intro b hb hPb
        rcases List.mem_cons.mp hb with rfl | hb
        · rfl
        · exact absurd hPb (by simp [List.countP_eq_zero.mp ht b hb])
      · rw [if_neg hx] at h
        rw [Nat.add_zero] at h
        rcases ih h with ⟨a, ha, hPa, huniq⟩
        refine ⟨a, List.mem_cons_of_mem x ha, hPa, ?_⟩
        intro b hb hPb
        rcases List.mem_cons.mp hb with rfl | hb
        · exact absurd hPb hx
        · exact huniq b hb hPb

/-- When the PR numbers of the classified list are distinct, each number
occurs in the source-PR set of exactly one produced entry. -/
theorem deduplicate_countP_one (l : List Classified)
    (hn : (l.map (fun x => x.1.number)).Nodup) (p : Classified) (hp : p ∈ l) :
    (deduplicate l).countP (fun e => e.sourcePRs.contains p.1.number) = 1 := by
  have hflat : ((groupsOf l).flatten).Perm l := by
    have h := groupsOf_flatten_perm l []
    simpa using h
  have h1 : (l.map (fun x => x.1.number)).count p.1.number
      = l.countP (fun x => x.1.number == p.1.number) := by
    rw [List.count_eq_countP, List.countP_map]
    rfl
  have h2 : (l.map (fun x => x.1.number)).count p.1.number = 1 :=
    List.count_eq_one_of_mem hn (List.mem_map.mpr ⟨p, hp, rfl⟩)
  have hcl : l.countP (fun x => x.1.number == p.1.number) = 1 := h1 ▸ h2
  have hflatP : ((groupsOf l).flatten).countP
      (fun x => x.1.number == p.1.number) = 1 := by
    rw [hflat.countP_eq]
    exact hcl
  have hgroups := countP_flatten_one
    (fun x => x.1.number == p.1.number) (groupsOf l) hflatP
  rw [deduplicate, List.countP_map]
  have hcong : (groupsOf l).countP
      ((fun e => e.sourcePRs.contains p.1.number) ∘ mkEntry)
      = (groupsOf l).countP
        (fun g => g.any (fun x => x.1.number == p.1.number)) := by
    refine List.countP_congr ?_
    intro g _
    show ((mkEntry g).sourcePRs.contains p.1.number) = true ↔ _
    rw [mkEntry_contains]
  rw [hcong]
  exact hgroups

/-- C4: deduplicate places any two PRs that share a linked-issue
identifier or a normalised title into one common ChangelogEntry, each PR
number occurs in exactly one entry (no group is split or duplicated),
every entry's contributor and source-PR sets are exactly the unions over
its group, its category is the earliest-declared one among the group, and
the two feature PRs 20 and 21 linking issue 5 yield the single Features
entry with source-PR set containing 20 and 21. -/
theorem deduplicator_groups (l : List Classified)
    (hn : (l.map (fun x => x.1.number)).Nodup) :
    (∀ p ∈ l, ∀ q ∈ l, sharesC p q = true →
      ∃ e ∈ deduplicate l, p.1.number ∈ e.sourcePRs ∧ q.1.number ∈ e.sourcePRs) ∧
    (∀ p ∈ l, (deduplicate l).countP
        (fun e => e.sourcePRs.contains p.1.number) = 1) ∧
    (∀ g ∈ groupsOf l,
      (∀ n, n ∈ (mkEntry g).sourcePRs ↔ ∃ x ∈ g, x.1.number = n) ∧
      (∀ a, a ∈ (mkEntry g).contributors ↔ ∃ x ∈ g, x.1.author = a) ∧
      (mkEntry g).category ∈ g.map Prod.snd ∧
      (∀ x ∈ g, catIdx (mkEntry g).category ≤ catIdx x.2)) ∧
    deduplicate [(prFeat, Category.Features), (prFeat2, Category.Features)] =
      [{ title := "Add feature", category := Category.Features,
         contributors := ["alice", "bob"], sourcePRs := [20, 21] }] := by
  have hflat : ((groupsOf l).flatten).Perm l := by
    have h := groupsOf_flatten_perm l []
    simpa using h
  have hne : ∀ g ∈ groupsOf l, g ≠ [] :=
    groupsOf_ne_nil l [] (by simp)
  refine ⟨?_, ?_, ?_, by decide⟩
  · intro p hp q hq hpq
    have hp2 : p ∈ (groupsOf l).flatten := hflat.mem_iff.mpr hp
    have hq2 : q ∈ (groupsOf l).flatten := hflat.mem_iff.mpr hq
    have hsg := groupsOf_same l []
      (fun p q hp _ _ => absurd hp (by simp)) p q hp2 hq2 hpq
    rcases hsg with ⟨g, hg, hpg, hqg⟩
    refine ⟨mkEntry g, List.mem_map.mpr ⟨g, hg, rfl⟩, ?_, ?_⟩
    · cases g with
      | nil => cases hpg
      | cons c rest => exact (mkEntry_sourcePRs c rest _).mpr ⟨p, hpg, rfl⟩
    · cases g with
      | nil => cases hqg
      | cons c rest => exact (mkEntry_sourcePRs c rest _).mpr ⟨q, hqg, rfl⟩
  · exact fun p hp => deduplicate_countP_one l hn p hp
  · intro g hg
    have hgne := hne g hg
    cases g with
    | nil => exact absurd rfl hgne
    | cons c rest =>
        exact ⟨mkEntry_sourcePRs c rest, mkEntry_contributors c rest,
          (mkEntry_category c rest).1, (mkEntry_category c rest).2⟩

/-- C4 witness: the two sample feature PRs share linked issue 5 and land
in one common entry holding both their numbers. -/
theorem deduplicator_groups_witness :
    ∃ e ∈ deduplicate [(prFeat, Category.Features), (prFeat2, Category.Features)],
      20 ∈ e.sourcePRs ∧ 21 ∈ e.sourcePRs :=
  (deduplicator_groups [(prFeat, Category.Features), (prFeat2, Category.Features)]
    (by decide)).1 (prFeat, Category.Features) (by decide)
    (prFeat2, Category.Features) (by decide) (by decide)

/-- When exactly one entry of the list satisfies P, exactly one rendered
section contains an entry satisfying P. -/
theorem renderDoc_countP_one (entries : List ChangelogEntry)
    (P : ChangelogEntry → Bool) (h : entries.countP P = 1) :
    (renderDoc entries).countP (fun s => s.2.any P) = 1 := by
  rcases countP_one_char P entries h with ⟨e₀, hmem, hP, huniq⟩
  have hnodup : ((renderDoc entries).map Prod.fst).Nodup :=
    (renderDoc_fst_sublist entries categoryOrderList).nodup (by decide)
  have hcatmem : e₀.category ∈ (renderDoc entries).map Prod.fst := by
    rw [renderDoc, renderDoc_fst_mem entries categoryOrderList,
      sectionEntries_nonempty_iff]
    exact ⟨mem_categoryOrderList _, e₀, hmem, rfl⟩
  have hcong : (renderDoc entries).countP (fun s => s.2.any P)
      = (renderDoc entries).countP (fun s => s.1 == e₀.category) := by
    refine List.countP_congr ?_
    intro s hs
    rw [renderDoc, List.mem_filterMap] at hs
    rcases hs with ⟨c0, _, hf⟩
    by_cases hempty : (sectionEntries entries c0).isEmpty = true
    · rw [sectionOpt_eq_none hempty] at hf
      cases hf
    · rw [sectionOpt_eq_some hempty] at hf
      cases hf
      show (sectionEntries entries c0).any P = true ↔ (c0 == e₀.category) = true
      have hperm := List.perm_insertionSort entryLE
        (entries.filter (fun x => x.category == c0))
      constructor
      · intro hany
        rcases List.any_eq_true.mp hany with ⟨e, he, hPe⟩
        rw [sectionEntries] at he
        have he2 : e ∈ entries.filter (fun x => x.category == c0) :=
          hperm.mem_iff.mp he
        rw [List.mem_filter] at he2
        have heq : e = e₀ := huniq e he2.1 hPe
        subst heq
        have hcat : e.category = c0 := by simpa using he2.2
        simp [hcat]
      · intro hc
        have hceq : c0 = e₀.category := by simpa using hc
        have he₀f : e₀ ∈ entries.filter (fun x => x.category == c0) := by
          rw [List.mem_filter]
          exact ⟨hmem, by simp [hceq]⟩
        refine List.any_eq_true.mpr ⟨e₀, ?_, hP⟩
        rw [sectionEntries]
        exact hperm.mem_iff.mpr he₀f
  rw [hcong]
  have hcnt : (renderDoc entries).countP (fun s => s.1 == e₀.category)
      = ((renderDoc entries).map Prod.fst).count e₀.category := by
    rw [List.count_eq_countP, List.countP_map]
    rfl
  rw [hcnt]
  exact List.count_eq_one_of_mem hnodup hcatmem

/-- C6: when the fetched PR numbers are distinct (PR numbers are the
repository's identifiers), every PR that qualifies per the Selector
contract appears in exactly one ChangelogEntry of the pipeline and in
exactly one Category section of the rendered document: neither dropped
nor duplicated, and its entry lies in a single section. -/
theorem pipeline_completeness (prs : List PullRequest) (b : VersionBoundary)
    (excl : List String) (rules : List (String × Category))
    (hn : (prs.map PullRequest.number).Nodup) (pr : PullRequest)
    (hmem : pr ∈ prs) (hq : qualifies pr b excl = true) :
    (entriesOf prs b excl rules).countP
        (fun e => e.sourcePRs.contains pr.number) = 1 ∧
    (renderDoc (entriesOf prs b excl rules)).countP
        (fun s => s.2.any (fun e => e.sourcePRs.contains pr.number)) = 1 := by
  have hmemL : (pr, classify pr rules) ∈
      (sortPRs (select prs b excl)).map (fun p => (p, classify p rules)) := by
    refine List.mem_map.mpr ⟨pr, ?_, rfl⟩
    rw [sortPRs, List.mem_insertionSort, select, List.mem_filter]
    exact ⟨hmem, hq⟩
  have hnL : (((sortPRs (select prs b excl)).map
      (fun p => (p, classify p rules))).map (fun x => x.1.number)).Nodup := by
    rw [List.map_map]
    have hperm : ((sortPRs (select prs b excl)).map PullRequest.number).Perm
        ((select prs b excl).map PullRequest.number) :=
      (List.perm_insertionSort prLE _).map _
    have h1 : ((select prs b excl).map PullRequest.number).Nodup :=
      hn.sublist ((List.filter_sublist _).map _)
    exact hperm.nodup_iff.mpr h1
  have hcount1 : (entriesOf prs b excl rules).countP
      (fun e => e.sourcePRs.contains pr.number) = 1 :=
    deduplicate_countP_one _ hnL (pr, classify pr rules) hmemL
  exact ⟨hcount1, renderDoc_countP_one _ _ hcount1⟩

/-- C6 witness: the qualifying sample bug-fix PR appears in exactly one
entry and exactly one section of its run. -/
theorem pipeline_completeness_witness :
    (entriesOf [prBug, prFeat] sampleBoundary [] sampleRules).countP
        (fun e => e.sourcePRs.contains prBug.number) = 1 ∧
    (renderDoc (entriesOf [prBug, prFeat] sampleBoundary [] sampleRules)).countP
        (fun s => s.2.any (fun e => e.sourcePRs.contains prBug.number)) = 1 :=
  pipeline_completeness [prBug, prFeat] sampleBoundary [] sampleRules
    (by decide) prBug (by decide) (by decide)

/-- Two sorted permutations of a PR list with distinct numbers are equal:
sorting by number gives a canonical form. -/
theorem sorted_eq_of_perm_nodup :
    ∀ (l₁ l₂ : List PullRequest), l₁.Perm l₂ → l₁.Sorted prLE → l₂.Sorted prLE →
      (l₁.map PullRequest.number).Nodup → l₁ = l₂ := by
  intro l₁
  induction l₁ with
  | nil =>
      intro l₂ hp _ _ _
      exact (hp.symm.eq_nil).symm
  | cons a t ih =>
      intro l₂ hp hs₁ hs₂ hn
      cases l₂ with
      | nil => exact absurd hp.eq_nil (by simp)
      | cons b s =>
          have hab : a = b := by
            by_contra hne
            have hbmem : b ∈ a :: t := hp.mem_iff.mpr (List.mem_cons_self b s)
            have hamem : a ∈ b :: s := hp.mem_iff.mp (List.mem_cons_self a t)
            have hbt : b ∈ t := by
              rcases List.mem_cons.mp hbmem with h | h
              · exact absurd h.symm hne
              · exact h
            have has : a ∈ s := by
              rcases List.mem_cons.mp hamem with h | h
              · exact absurd h hne
              · exact h
            have h1 : a.number ≤ b.number := (List.sorted_cons.mp hs₁).1 b hbt
            have h2 : b.number ≤ a.number := (List.sorted_cons.mp hs₂).1 a has
            have heq : a.number = b.number := Nat.le_antisymm h1 h2
            rw [List.map_cons] at hn
            rcases List.nodup_cons.mp hn with ⟨hna, _⟩
            exact hna (heq ▸ List.mem_map.mpr ⟨b, hbt, rfl⟩)
          subst hab
          have ht : t.Perm s := hp.cons_inv
          rw [List.map_cons] at hn
          have htail := ih s ht (List.sorted_cons.mp hs₁).2
            (List.sorted_cons.mp hs₂).2 (List.nodup_cons.mp hn).2
          rw [htail]

/-- C8: with distinct PR numbers (PR numbers are the repository's
identifiers), permuting the fetched PR sequence before the run yields the
identical rendered text: the output depends only on the set of input PRs,
not on fetch order. -/
theorem pipeline_order_independent (prs₁ prs₂ : List PullRequest)
    (b : VersionBoundary) (excl : List String)
    (rules : List (String × Category)) (hperm : prs₁.Perm prs₂)
    (hn : (prs₁.map PullRequest.number).Nodup) :
    pipeline prs₁ b excl rules = pipeline prs₂ b excl rules := by
  have hsel : (select prs₁ b excl).Perm (select prs₂ b excl) :=
    hperm.filter _
  have hsorted : sortPRs (select prs₁ b excl) = sortPRs (select prs₂ b excl) := by
    refine sorted_eq_of_perm_nodup _ _ ?_ ?_ ?_ ?_
    · exact (List.perm_insertionSort prLE _).trans
        (hsel.trans (List.perm_insertionSort prLE _).symm)
    · exact List.sorted_insertionSort prLE _
    · exact List.sorted_insertionSort prLE _
    · have h1 : ((select prs₁ b excl).map PullRequest.number).Nodup :=
        hn.sublist ((List.filter_sublist _).map _)
      have h2 : ((sortPRs (select prs₁ b excl)).map PullRequest.number).Perm
          ((select prs₁ b excl).map PullRequest.number) :=
        (List.perm_insertionSort prLE _).map _
      exact h2.nodup_iff.mpr h1
  rw [pipeline, pipeline, entriesOf, entriesOf, hsorted]

/-- C8 witness: swapping the two sample PRs leaves the output unchanged. -/
theorem pipeline_order_independent_witness :
    pipeline [prFeat, prBug] sampleBoundary [] sampleRules =
      pipeline [prBug, prFeat] sampleBoundary [] sampleRules :=
  pipeline_order_independent [prFeat, prBug] [prBug, prFeat]
    sampleBoundary [] sampleRules (by decide) (by decide)

end ChangelogGen
